import Mathlib

/-!
# Verification of the yclass unified memory-access layer

Shallow embedding of the concatenated-dump codec (src/dump.rs) and of the
process backends (src/process.rs), with theorems checking the repository's
specification against the code.

Conventions of the embedding:
* Machine integers (u64, usize on a 64-bit host) are modelled as Nat.  Every
  value decoded from 8 little-endian bytes is < 2^64 by construction.  A u64
  addition whose sum can reach 2^64 on inputs the code accepts is modelled
  with an explicit % 2^64, the wrapping behaviour of a release build (a
  debug build would panic at that addition instead); the two such sites are
  the index validation of open and the containment check of
  get_memory_slice.  The remaining u64 additions are modelled exactly, with
  a comment at each site on why their operands keep the sum below 2^64 on
  the inputs the surrounding claims quantify over.
* Files and buffers are lists of Nat (byte values).
* Fallible Rust code returning io::Result is modelled with an explicit
  outcome type; a Rust panic (out-of-range slice index, failed assertion) is
  a distinguished outcome, never a value.
-/

namespace YClass

/-- Little-endian byte encoding: `leBytes k n` is the low `k` bytes of `n`,
least significant first.  `leBytes 8 n` models Rust's `u64::to_le_bytes`
applied to `n % 2^64`. -/
def leBytes : Nat → Nat → List Nat
  | 0, _ => []
  | k + 1, n => n % 256 :: leBytes k (n / 256)

/-- Little-endian byte decoding, models `u64::from_le_bytes` when applied to
an 8-byte list. -/
def leVal : List Nat → Nat
  | [] => 0
  | b :: bs => b + 256 * leVal bs

/-- Rust slice indexing `&l[s..e]`.  Rust panics when `e > l.len()` or
`s > e`; every use below is either bounds-checked by the translated code
itself or guarded by the reader's validation, and the panicking cases are
modelled explicitly at the call sites that can reach them. -/
def sliceRange (l : List Nat) (s e : Nat) : List Nat := (l.drop s).take (e - s)

/-- A memory chunk (src/dump.rs, struct MemoryChunk): a virtual address and
the raw bytes located there. -/
structure MemoryChunk where
  address : Nat
  data : List Nat
deriving DecidableEq, Repr

/-- An index entry (src/dump.rs, struct ChunkEntry): address, absolute file
offset of the chunk's bytes, and their length. -/
structure ChunkEntry where
  address : Nat
  file_offset : Nat
  length : Nat
deriving DecidableEq, Repr

/-- ChunkEntry::to_bytes: 24 bytes, three u64 little-endian fields. -/
def entryToBytes (e : ChunkEntry) : List Nat :=
  leBytes 8 e.address ++ leBytes 8 e.file_offset ++ leBytes 8 e.length

/-- ChunkEntry::from_bytes: errors when fewer than 24 bytes are supplied,
otherwise decodes the three little-endian u64 fields. -/
def entryFromBytes (bytes : List Nat) : Option ChunkEntry :=
  if bytes.length < 24 then none
  else some
    { address := leVal (bytes.take 8)
      file_offset := leVal ((bytes.drop 8).take 8)
      length := leVal ((bytes.drop 16).take 8) }

/-- The reader's index, modelling `BTreeMap<u64, ChunkEntry>`: an association
list kept sorted by strictly increasing key. -/
def BT := List (Nat × ChunkEntry)

/-- BTreeMap::insert: places the pair at its ordered position, replacing an
existing pair with the same key. -/
def btInsert (k : Nat) (v : ChunkEntry) : List (Nat × ChunkEntry) → List (Nat × ChunkEntry)
  | [] => [(k, v)]
  | p :: rest =>
    if k < p.1 then (k, v) :: p :: rest
    else if k = p.1 then (k, v) :: rest
    else p :: btInsert k v rest

/-- BTreeMap::get: the value stored at the key, if any. -/
def btGet (k : Nat) : List (Nat × ChunkEntry) → Option ChunkEntry
  | [] => none
  | p :: rest => if p.1 = k then some p.2 else btGet k rest

/-- BTreeMap::range(..=a).next_back(): the pair with the greatest key ≤ `a`.
On a list sorted by strictly increasing key this is the last pair whose key
is ≤ `a`. -/
def btPred (a : Nat) : List (Nat × ChunkEntry) → Option (Nat × ChunkEntry)
  | [] => none
  | p :: rest =>
    if p.1 ≤ a then
      match btPred a rest with
      | some q => some q
      | none => some p
    else none

/-- The sortedness invariant of the BTreeMap model. -/
def BTSorted (l : List (Nat × ChunkEntry)) : Prop :=
  l.Pairwise fun p q => p.1 < q.1

instance (l : List (Nat × ChunkEntry)) : Decidable (BTSorted l) := by
  unfold BTSorted; infer_instance

/-- ConcatenatedDumpReader: the mapped file bytes and the address-ordered
index built at open time. -/
structure Reader where
  mmap : List Nat
  chunks : List (Nat × ChunkEntry)
deriving DecidableEq

/-- Outcome of ConcatenatedDumpReader::open.  `crash` marks an input on
which the Rust code panics (an out-of-range slice index) instead of
returning an io::Result. -/
inductive OpenOutcome where
  | ok (r : Reader)
  | err (msg : String)
  | crash
deriving DecidableEq

/-- The entry-reading loop of ConcatenatedDumpReader::open (the
`for i in 0..chunk_count` loop): processes `k` further entries starting at
index `i`, accumulating the index map.  Early returns of the Rust loop are
the `err` results. -/
def openEntries (file : List Nat) (indexOffset entriesStart : Nat) :
    Nat → Nat → List (Nat × ChunkEntry) → OpenOutcome
  | _, 0, acc => .ok ⟨file, acc⟩
  | i, k + 1, acc =>
    if entriesStart + i * 24 + 24 > file.length then .err "Chunk entry extends beyond file"
    else
      match entryFromBytes (sliceRange file (entriesStart + i * 24) (entriesStart + i * 24 + 24)) with
      | none => .err "Not enough bytes for chunk entry"
      | some e =>
        -- Validation `entry.file_offset >= index_offset ||
        -- entry.file_offset + entry.length > index_offset`.  Both fields
        -- are < 2^64, but their u64 sum can overflow (e.g. length near
        -- 2^64): a release build wraps, so an overflowing range can slip
        -- past this check; a debug build would panic at the addition.
        -- Modelled with the release build's wrapping sum.
        if e.file_offset ≥ indexOffset ∨
            (e.file_offset + e.length) % 2 ^ 64 > indexOffset then
          .err "Invalid chunk file offset or length"
        else openEntries file indexOffset entriesStart (i + 1) k (btInsert e.address e acc)

/-- The index offset a reader decodes from the trailing 8 bytes of a file
(step 2 of the documented reading algorithm). -/
def dumpIndexOffset (file : List Nat) : Nat :=
  leVal (sliceRange file (file.length - 8) file.length)

/-- The chunk count a reader decodes at the index offset (step 4 of the
documented reading algorithm). -/
def dumpChunkCount (file : List Nat) : Nat :=
  leVal (sliceRange file (dumpIndexOffset file) (dumpIndexOffset file + 8))

/-- ConcatenatedDumpReader::open on the mapped file contents.  Follows
src/dump.rs lines 127–197: length check, trailer decode, index-offset
check, chunk-count decode and cap, then the entry loop.  The slice
`&mmap[index_offset..index_offset + 8]` taken for the chunk count is not
bounds-checked by the code: when `index_offset < len < index_offset + 8`
it panics, modelled by `crash`. -/
def openDump (file : List Nat) : OpenOutcome :=
  if file.length < 8 then .err "File too small to be a valid concatenated dump"
  else if dumpIndexOffset file ≥ file.length then .err "Invalid index offset"
  else if dumpIndexOffset file + 8 > file.length then .crash
  else if dumpChunkCount file > file.length / 24 then .err "Invalid chunk count"
  else openEntries file (dumpIndexOffset file) (dumpIndexOffset file + 8) 0
    (dumpChunkCount file) []

/-- ConcatenatedDumpReader::get_chunk_slice: exact-address lookup, returning
the entry's byte range of the mapped file. -/
def getChunkSlice (r : Reader) (address : Nat) : Option (List Nat) :=
  match btGet address r.chunks with
  | some entry => some (sliceRange r.mmap entry.file_offset (entry.file_offset + entry.length))
  | none => none

/-- The containment query of ConcatenatedDumpReader::get_memory_slice (the
`chunks.range(..=address).next_back().and_then(..)` pipeline): the
predecessor chunk, kept only when it contains the address.
`chunk_addr + entry.length` is a u64 sum in the code whose operands the
reader never bounds jointly — a chunk recorded at the top of the address
space overflows it.  A release build wraps (modelled by the % 2^64); a
debug build would panic at the addition. -/
def containingChunk (r : Reader) (address : Nat) : Option (ChunkEntry × Nat) :=
  match btPred address r.chunks with
  | some (chunkAddr, entry) =>
    if chunkAddr ≤ address ∧ address < (chunkAddr + entry.length) % 2 ^ 64 then
      some (entry, chunkAddr)
    else none
  | none => none

/-- ConcatenatedDumpReader::get_memory_slice: predecessor lookup, containment
check, clamp to the remainder of the chunk (offset_in_chunk, the saturating
available_length and read_length inlined), empty slice when the clamped
length is zero. -/
def getMemorySlice (r : Reader) (address length : Nat) : Option (List Nat) :=
  match containingChunk r address with
  | some (entry, chunkAddr) =>
    if min length (entry.length - (address - chunkAddr)) = 0 then some []
    else
      some (sliceRange r.mmap (entry.file_offset + (address - chunkAddr))
        (entry.file_offset + (address - chunkAddr) +
          min length (entry.length - (address - chunkAddr))))
  | none => none

/-- The writer's sort (`self.chunks.sort_by_key(|chunk| chunk.address)`):
a stable insertion sort by address. -/
def insertByAddress (c : MemoryChunk) : List MemoryChunk → List MemoryChunk
  | [] => [c]
  | d :: rest =>
    if c.address ≤ d.address then c :: d :: rest else d :: insertByAddress c rest

/-- Stable sort of the accumulated chunks by ascending address. -/
def sortByAddress : List MemoryChunk → List MemoryChunk
  | [] => []
  | c :: rest => insertByAddress c (sortByAddress rest)

/-- The index-entry construction of ConcatenatedDumpWriter::write: records
`(address, file_offset, length)` while advancing the running offset by each
chunk's data length. -/
def buildEntries : List MemoryChunk → Nat → List ChunkEntry
  | [], _ => []
  | c :: rest, offset =>
    ⟨c.address, offset, c.data.length⟩ :: buildEntries rest (offset + c.data.length)

/-- The byte stream emitted by ConcatenatedDumpWriter::write for an
already-sorted chunk list: concatenated chunk data, chunk count, entries,
trailing index offset. -/
def writeBody (sorted : List MemoryChunk) : List Nat :=
  let data := (sorted.map MemoryChunk.data).flatten
  let entries := buildEntries sorted 0
  data ++ leBytes 8 entries.length ++ (entries.map entryToBytes).flatten ++
    leBytes 8 data.length

/-- ConcatenatedDumpWriter: create, add_chunk for each list element in
order, then write.  The writer sorts by address before emitting anything. -/
def writeDump (chunks : List MemoryChunk) : List Nat :=
  writeBody (sortByAddress chunks)

/-!
## Process backends (src/process.rs)

The minidump source hands `Process::minidump` a sequence of memory regions,
ordered by base address; each region's bytes are a slice of one host buffer
(the mapped minidump file).  A region is modelled by its guest base address
and the position of its bytes inside that host buffer: merging in the code
compares raw host pointers, so host positions are part of the model.
-/

/-- One memory region of the minidump, as produced by `mem.by_addr()`:
guest base address, offset of its bytes inside the host buffer, length. -/
structure Region where
  base : Nat
  hostOff : Nat
  len : Nat
deriving DecidableEq, Repr

/-- The bytes of a region, read out of the host buffer. -/
def regionBytes (host : List Nat) (r : Region) : List Nat :=
  sliceRange host r.hostOff (r.hostOff + r.len)

/-- merge_adjacent_slices: asserts the two slices are contiguous in host
memory and returns the combined slice; the failed assertion is a Rust
panic, modelled as `none`. -/
def mergeAdjacentSlices (a b : Region) : Option Region :=
  if a.hostOff + a.len = b.hostOff then some ⟨a.base, a.hostOff, a.len + b.len⟩
  else none

/-- The region-merging loop of Process::minidump.  `pending` is the
in-progress chunk (`chunk` in the code); `segments` accumulates finished
segments.  Numeric adjacency of guest addresses (`address + slice.len() ==
mem.base_address()`, a u64 comparison; exact here, addresses in a real dump
are far below 2^64) triggers merge_adjacent_slices, whose assertion may
panic (`none`).  After the loop the code returns the accumulated segments
without flushing the still-pending chunk. -/
def minidumpLoop (host : List Nat) :
    List Region → Option Region → List (Nat × List Nat) → Option (List (Nat × List Nat))
  | [], _, segments => some segments
  | r :: rest, pending, segments =>
    match pending with
    | some p =>
      if p.base + p.len = r.base then
        match mergeAdjacentSlices p r with
        | some merged => minidumpLoop host rest (some merged) segments
        | none => none
      else minidumpLoop host rest (some r) (segments ++ [(p.base, regionBytes host p)])
    | none => minidumpLoop host rest (some r) segments

/-- Process::minidump: builds the segment list of the Minidump variant from
the dump's regions. -/
def minidumpLoad (host : List Nat) (regions : List Region) :
    Option (List (Nat × List Nat)) :=
  minidumpLoop host regions none []

/-- The Minidump arm of Process::read: scans the segments for one whose
range contains `address` and copies `buf.length` bytes from it starting at
the contained offset.  `&mem[base..base + buf.len()]` panics (`none`) when
the requested range runs past the segment's end; when no segment contains
the address the destination buffer is left unchanged.  (`*addr + mem.len()`
is a u64 sum in the code; exact here.) -/
def snapshotRead : List (Nat × List Nat) → Nat → List Nat → Option (List Nat)
  | [], _, buf => some buf
  | (addr, mem) :: rest, address, buf =>
    if addr ≤ address ∧ address < addr + mem.length then
      let base := address - addr
      if base + buf.length ≤ mem.length then
        some (sliceRange mem base (base + buf.length))
      else none
    else snapshotRead rest address buf

/-- The two read-only backends of the Process enum that the dump claims
concern: the parsed snapshot and the concatenated dump. -/
inductive ProcessModel where
  | minidump (segments : List (Nat × List Nat))
  | concatenatedDump (reader : Reader)
deriving DecidableEq

/-- Process::write on the read-only backends: both arms are
`/* read only */` no-ops, returning unit and leaving the backend state as
it was. -/
def procWrite (p : ProcessModel) (_address : Nat) (_buf : List Nat) : ProcessModel × Unit :=
  match p with
  | .minidump segments => (.minidump segments, ())
  | .concatenatedDump reader => (.concatenatedDump reader, ())

/-!
## Plugin backend lifecycle (src/process.rs, Process::attach managed path)

The managed path is straight-line: resolve the five symbols, build the
ManagedExtension, call its attach function, return the backend; Drop calls
detach.  The observable call sequence of one successfully constructed
backend is embedded as an event trace.
-/

/-- Observable events of the plugin backend's lifetime. -/
inductive PluginEvent where
  | resolve (symbol : String)
  | attachCall
  | readCall
  | writeCall
  | canReadCall
  | detachCall
deriving DecidableEq, Repr

/-- Operations the host may route to the backend between construction and
drop. -/
inductive PluginOp where
  | opRead
  | opWrite
  | opCanRead
deriving DecidableEq, Repr

/-- The event a routed operation produces (the Managed arms of
Process::read, Process::write, Process::can_read each call the resolved
function pointer). -/
def opEvent : PluginOp → PluginEvent
  | .opRead => .readCall
  | .opWrite => .writeCall
  | .opCanRead => .canReadCall

/-- The construction trace of Process::attach's managed path: the five
symbol resolutions in program order, then the single `(ext.attach)(pid)`
call. -/
def constructionTrace : List PluginEvent :=
  [.resolve "yc_attach", .resolve "yc_read", .resolve "yc_write",
   .resolve "yc_can_read", .resolve "yc_detach", .attachCall]

/-- The full event trace of a successfully constructed plugin backend:
construction, then the routed operations, then the Drop impl's single
detach call. -/
def pluginLifetime (ops : List PluginOp) : List PluginEvent :=
  constructionTrace ++ ops.map opEvent ++ [.detachCall]

/-!
## Derived definitions used by the development
-/

/-- The total number of data bytes of a chunk list. -/
def totalDataLen (l : List MemoryChunk) : Nat :=
  (l.map fun c => c.data.length).sum

/-- The running data offset of the j-th sorted chunk (the writer's
current_offset just before chunk j is written). -/
def dataOffset (s : List MemoryChunk) (j : Nat) : Nat :=
  totalDataLen (s.take j)

/-- The fold of the open loop's inserts over a list of entries. -/
def insertList (es : List ChunkEntry) (b : List (Nat × ChunkEntry)) :
    List (Nat × ChunkEntry) :=
  es.foldl (fun b e => btInsert e.address e b) b

/-- A step index of the entry loop at which the Rust loop takes one of its
two early error returns: the 24-byte entry record would run past the end of
the file, or the decoded entry's byte range fails the validation against
the index offset. -/
def badEntryStep (file : List Nat) (io es t : Nat) : Prop :=
  file.length < es + t * 24 + 24 ∨
    (∃ e : ChunkEntry,
      entryFromBytes (sliceRange file (es + t * 24) (es + t * 24 + 24)) = some e ∧
      (io ≤ e.file_offset ∨ io < (e.file_offset + e.length) % 2 ^ 64))

/-- The spec's containment-correctness example: a dump with 5-byte chunks
at 0x1000 and 0x2000. -/
def exampleDump : List Nat :=
  writeDump [⟨0x1000, [1, 2, 3, 4, 5]⟩, ⟨0x2000, [6, 7, 8, 9, 10]⟩]

/-- The reader obtained by opening the example dump. -/
def exampleReader : Reader :=
  ⟨exampleDump, [(0x1000, ⟨0x1000, 0, 5⟩), (0x2000, ⟨0x2000, 5, 5⟩)]⟩

/-- An index entry recorded at the very top of the u64 address space: its
address + length overflows u64, although each field alone is a valid
u64.  open accepts it (all its validation bounds only file offsets). -/
def wrapEntry : ChunkEntry := ⟨2 ^ 64 - 1, 0, 5⟩

/-- A hand-laid-out dump file holding the top-of-address-space entry: five
data bytes, the count 1, the entry record, the trailer offset 5. -/
def wrapFile : List Nat :=
  [10, 11, 12, 13, 14] ++ leBytes 8 1 ++ entryToBytes wrapEntry ++ leBytes 8 5

/-- The reader obtained by opening the top-of-address-space dump. -/
def wrapReader : Reader := ⟨wrapFile, [(2 ^ 64 - 1, wrapEntry)]⟩

/-- The duplicate-address index of the C10 claim: two individually valid
entries with the same address 0x10, pointing at different data bytes. -/
def dupEntries : List ChunkEntry := [⟨0x10, 0, 1⟩, ⟨0x10, 1, 1⟩]

/-- A hand-laid-out dump file containing the duplicate-address index: two
data bytes, the count 2, the two entry records, the trailer offset 2. -/
def dupFile : List Nat :=
  [170, 187] ++ leBytes 8 2 ++ entryToBytes ⟨0x10, 0, 1⟩ ++
    entryToBytes ⟨0x10, 1, 1⟩ ++ leBytes 8 2

/-!
## General lemmas about slices and the embedding
-/

theorem leBytes_length (k n : Nat) : (leBytes k n).length = k := by
  induction k generalizing n with
  | zero => rfl
  | succ k ih => simp [leBytes, ih]

theorem leVal_leBytes (k n : Nat) : leVal (leBytes k n) = n % 256 ^ k := by
  induction k generalizing n with
  | zero => simp [leBytes, leVal, Nat.mod_one]
  | succ k ih =>
    simp only [leBytes, leVal, ih]
    rw [pow_succ, Nat.mul_comm (256 ^ k) 256, Nat.mod_mul]

/-- The little-endian roundtrip at u64 width. -/
theorem leVal_leBytes8 (n : Nat) (h : n < 2 ^ 64) : leVal (leBytes 8 n) = n := by
  have h256 : (256 : Nat) ^ 8 = 2 ^ 64 := by norm_num
  rw [leVal_leBytes, h256, Nat.mod_eq_of_lt h]

theorem sliceRange_append_right (A B : List Nat) (s e : Nat) :
    sliceRange (A ++ B) (A.length + s) (A.length + e) = sliceRange B s e := by
  unfold sliceRange
  rw [List.drop_append s]
  congr 1
  omega

theorem sliceRange_append_left (A B : List Nat) (s e : Nat) (he : e ≤ A.length) :
    sliceRange (A ++ B) s e = sliceRange A s e := by
  unfold sliceRange
  rcases Nat.le_total s A.length with hs | hs
  · rw [List.drop_append_of_le_length hs, List.take_append_of_le_length (by
      simpa [List.length_drop] using by omega)]
  · have h1 : e - s = 0 := by omega
    rw [h1]
    simp [List.take_zero]

theorem sliceRange_full (A : List Nat) : sliceRange A 0 A.length = A := by
  unfold sliceRange
  simp

theorem sliceRange_length (l : List Nat) (s e : Nat) (hs : s ≤ e) (he : e ≤ l.length) :
    (sliceRange l s e).length = e - s := by
  unfold sliceRange
  rw [List.length_take, List.length_drop]
  omega

/-!
## Writer structure lemmas
-/

theorem entryToBytes_length (e : ChunkEntry) : (entryToBytes e).length = 24 := by
  simp [entryToBytes, leBytes_length]

theorem buildEntries_length (s : List MemoryChunk) (off : Nat) :
    (buildEntries s off).length = s.length := by
  induction s generalizing off with
  | nil => rfl
  | cons c rest ih => simp [buildEntries, ih]

theorem insertByAddress_perm (c : MemoryChunk) (l : List MemoryChunk) :
    (insertByAddress c l).Perm (c :: l) := by
  induction l with
  | nil => exact List.Perm.refl _
  | cons d rest ih =>
    rw [insertByAddress]
    split
    · exact List.Perm.refl _
    · exact (List.Perm.cons d ih).trans (List.Perm.swap c d rest)

theorem sortByAddress_perm (l : List MemoryChunk) : (sortByAddress l).Perm l := by
  induction l with
  | nil => exact List.Perm.refl _
  | cons c rest ih =>
    exact (insertByAddress_perm c (sortByAddress rest)).trans (List.Perm.cons c ih)

theorem flatten_map_data_length (s : List MemoryChunk) :
    ((s.map MemoryChunk.data).flatten).length = totalDataLen s := by
  rw [List.length_flatten, List.map_map, totalDataLen]
  rfl

theorem totalDataLen_of_perm {l₁ l₂ : List MemoryChunk} (h : l₁.Perm l₂) :
    totalDataLen l₁ = totalDataLen l₂ := by
  unfold totalDataLen
  exact (h.map fun c => c.data.length).sum_eq

/-- The slice of an appended file that covers exactly the middle block. -/
theorem sliceRange_block (A B C : List Nat) :
    sliceRange (A ++ (B ++ C)) A.length (A.length + B.length) = B := by
  have h := sliceRange_append_right A (B ++ C) 0 B.length
  rw [Nat.add_zero] at h
  rw [h]
  unfold sliceRange
  simp [List.take_left]

/-- The trailer decode of any file ending in an 8-byte block. -/
theorem dumpIndexOffset_append (A B : List Nat) (hB : B.length = 8) :
    dumpIndexOffset (A ++ B) = leVal B := by
  unfold dumpIndexOffset
  have h := sliceRange_block A B []
  rw [List.append_nil] at h
  have h1 : (A ++ B).length = A.length + B.length := List.length_append A B
  rw [h1, hB, show A.length + 8 - 8 = A.length by omega,
    show A.length + 8 = A.length + B.length by rw [hB], h]

theorem mem_insertByAddress {x c : MemoryChunk} {l : List MemoryChunk}
    (h : x ∈ insertByAddress c l) : x = c ∨ x ∈ l := by
  have := (insertByAddress_perm c l).mem_iff.mp h
  simpa using this

theorem pairwise_le_insertByAddress (c : MemoryChunk) (l : List MemoryChunk)
    (h : l.Pairwise fun a b => a.address ≤ b.address) :
    (insertByAddress c l).Pairwise fun a b => a.address ≤ b.address := by
  induction l with
  | nil => simp [insertByAddress]
  | cons d rest ih =>
    rw [insertByAddress]
    rcases List.pairwise_cons.mp h with ⟨hd, hrest⟩
    split
    · rename_i hcd
      exact List.pairwise_cons.mpr ⟨by
        intro x hx
        rcases hx with _ | hx
        · exact hcd
        · exact Nat.le_trans hcd (hd x (by assumption)), h⟩
    · rename_i hcd
      have hdc : d.address ≤ c.address := Nat.le_of_not_le (by
        intro hne
        exact hcd hne)
      refine List.pairwise_cons.mpr ⟨?_, ih hrest⟩
      intro x hx
      rcases mem_insertByAddress hx with rfl | hx
      · exact hdc
      · exact hd x hx

theorem pairwise_le_sortByAddress (l : List MemoryChunk) :
    (sortByAddress l).Pairwise fun a b => a.address ≤ b.address := by
  induction l with
  | nil => simp [sortByAddress]
  | cons c rest ih => exact pairwise_le_insertByAddress c (sortByAddress rest) ih

/-- Two sorted lists with strictly increasing addresses that are
permutations of each other are equal. -/
theorem sorted_strict_perm_eq :
    ∀ l₁ l₂ : List MemoryChunk, l₁.Perm l₂ →
      l₁.Pairwise (fun a b => a.address < b.address) →
      l₂.Pairwise (fun a b => a.address < b.address) → l₁ = l₂ := by
  intro l₁
  induction l₁ with
  | nil => intro l₂ hp _ _; exact hp.nil_eq
  | cons a t₁ ih =>
    intro l₂ hp h₁ h₂
    cases l₂ with
    | nil => exact absurd (List.perm_nil.mp hp) (by simp)
    | cons b t₂ =>
      rcases List.pairwise_cons.mp h₁ with ⟨ha, ht₁⟩
      rcases List.pairwise_cons.mp h₂ with ⟨hb, ht₂⟩
      have hab : a = b := by
        by_contra hne
        have hamem : a ∈ b :: t₂ := hp.mem_iff.mp (by simp)
        have hbmem : b ∈ a :: t₁ := hp.symm.mem_iff.mp (by simp)
        have h1 : b.address < a.address := by
          rcases hamem with _ | ham
          · exact absurd rfl hne
          · exact hb a (by assumption)
        have h2 : a.address < b.address := by
          rcases hbmem with _ | hbm
          · exact absurd rfl (fun h => hne h.symm)
          · exact ha b (by assumption)
        omega
      subst hab
      rw [ih t₂ (hp.cons_inv) ht₁ ht₂]

/-- The entry loop returns a reader or an error, never a panic. -/
theorem openEntries_ne_crash (file : List Nat) (io es : Nat) :
    ∀ (k i : Nat) (acc : List (Nat × ChunkEntry)),
      openEntries file io es i k acc ≠ .crash := by
  intro k
  induction k with
  | zero => intro i acc h; exact OpenOutcome.noConfusion h
  | succ k ih =>
    intro i acc h
    rw [openEntries] at h
    split at h
    · exact OpenOutcome.noConfusion h
    · split at h
      · exact OpenOutcome.noConfusion h
      · split at h
        · exact OpenOutcome.noConfusion h
        · exact ih _ _ h

/-- If any of the `k` remaining loop steps is bad, the loop returns an
error. -/
theorem openEntries_err_of_bad (file : List Nat) (io es : Nat) :
    ∀ (k i : Nat) (acc : List (Nat × ChunkEntry)),
      (∃ j, j < k ∧ badEntryStep file io es (i + j)) →
      ∃ m, openEntries file io es i k acc = .err m := by
  intro k
  induction k with
  | zero => rintro i acc ⟨j, hj, -⟩; omega
  | succ k ih =>
    rintro i acc ⟨j, hj, hbad⟩
    rw [openEntries]
    by_cases hfit : es + i * 24 + 24 > file.length
    · exact ⟨_, by rw [if_pos hfit]⟩
    · rw [if_neg hfit]
      rcases hdec : entryFromBytes (sliceRange file (es + i * 24) (es + i * 24 + 24)) with
        _ | e
      · exact ⟨_, rfl⟩
      · by_cases hval : io ≤ e.file_offset ∨ io < (e.file_offset + e.length) % 2 ^ 64
        · refine ⟨"Invalid chunk file offset or length", ?_⟩
          simp only [hdec]
          rw [if_pos (by omega)]
        · simp only [hdec]
          rw [if_neg (by omega)]
          rcases Nat.eq_zero_or_pos j with rfl | hjpos
          · exact absurd hbad (by
              rcases hbad with hb | ⟨e2, he2, hv2⟩
              · omega
              · rw [Nat.add_zero] at he2
                rw [hdec] at he2
                cases he2
                omega)
          · exact ih (i + 1) (btInsert e.address e acc)
              ⟨j - 1, by omega, by
                have : i + 1 + (j - 1) = i + j := by omega
                rw [this]; exact hbad⟩

/-!
## Index-map lemmas (BTreeMap model)
-/

theorem btGet_btInsert (k k' : Nat) (v : ChunkEntry) (b : List (Nat × ChunkEntry)) :
    btGet k (btInsert k' v b) = if k' = k then some v else btGet k b := by
  induction b with
  | nil => rfl
  | cons p rest ih =>
    rw [btInsert]
    by_cases h1 : k' < p.1
    · rw [if_pos h1]
      rfl
    · rw [if_neg h1]
      by_cases h2 : k' = p.1
      · rw [if_pos h2]
        show (if k' = k then some v else btGet k rest) =
          if k' = k then some v else btGet k (p :: rest)
        by_cases h : k' = k
        · rw [if_pos h, if_pos h]
        · rw [if_neg h, if_neg h, btGet, if_neg (by omega : ¬p.1 = k)]
      · rw [if_neg h2]
        show (if p.1 = k then some p.2 else btGet k (btInsert k' v rest)) =
          if k' = k then some v else btGet k (p :: rest)
        rw [ih]
        by_cases h : p.1 = k
        · rw [if_pos h, if_neg (by omega : ¬k' = k), btGet, if_pos h]
        · rw [if_neg h]
          by_cases hk : k' = k
          · rw [if_pos hk, if_pos hk]
          · rw [if_neg hk, if_neg hk, btGet, if_neg h]

/-- Lookup after inserting a run of entries: the entry inserted last for
the key wins, falling back to the original map. -/
theorem btGet_insertList (k : Nat) (es : List ChunkEntry) (b : List (Nat × ChunkEntry)) :
    btGet k (insertList es b) =
      (es.reverse.find? fun e => e.address == k).or (btGet k b) := by
  induction es generalizing b with
  | nil => simp [insertList, List.find?]
  | cons e rest ih =>
    rw [insertList, List.foldl_cons]
    have step : btGet k (insertList rest (btInsert e.address e b)) =
        (rest.reverse.find? fun f => f.address == k).or
          (btGet k (btInsert e.address e b)) := ih _
    rw [insertList] at step
    rw [step, btGet_btInsert, List.reverse_cons, List.find?_append, Option.or_assoc]
    congr 1
    by_cases h : e.address = k
    · simp [List.find?, h]
    · have hbe : (e.address == k) = false := by simp [h]
      simp [List.find?, hbe, h]

/-- On a list of entries with pairwise-distinct addresses, find? by the
address of a member returns that member. -/
theorem find?_addr_of_nodup (l : List ChunkEntry) (e : ChunkEntry)
    (hmem : e ∈ l) (hnd : (l.map ChunkEntry.address).Nodup) :
    (l.find? fun f => f.address == e.address) = some e := by
  induction l with
  | nil => cases hmem
  | cons f rest ih =>
    rcases List.mem_cons.mp hmem with rfl | hm
    · simp [List.find?]
    · have hne : f.address ≠ e.address := by
        intro heq
        have : f.address ∈ rest.map ChunkEntry.address :=
          heq ▸ List.mem_map.mpr ⟨e, hm, rfl⟩
        exact (List.nodup_cons.mp hnd).1 this
      rw [List.find?]
      rw [show (f.address == e.address) = false by simp [hne]]
      exact ih hm (List.nodup_cons.mp hnd).2

/-!
## Entry decode/encode and file-layout lemmas
-/

theorem entryFromBytes_entryToBytes (e : ChunkEntry) (ha : e.address < 2 ^ 64)
    (hf : e.file_offset < 2 ^ 64) (hl : e.length < 2 ^ 64) :
    entryFromBytes (entryToBytes e) = some e := by
  have h8 : ∀ n : Nat, (leBytes 8 n).length = 8 := fun n => leBytes_length 8 n
  have hlen : (entryToBytes e).length = 24 := entryToBytes_length e
  rw [entryFromBytes, if_neg (by omega)]
  have htake : (entryToBytes e).take 8 = leBytes 8 e.address := by
    rw [entryToBytes, List.append_assoc]
    exact List.take_left' (h8 _)
  have hdrop8 : (entryToBytes e).drop 8 = leBytes 8 e.file_offset ++ leBytes 8 e.length := by
    rw [entryToBytes, List.append_assoc]
    exact List.drop_left' (h8 _)
  have hdrop16 : (entryToBytes e).drop 16 = leBytes 8 e.length := by
    rw [entryToBytes]
    exact List.drop_left' (by simp [h8])
  rw [htake, hdrop8, hdrop16, List.take_left' (h8 _),
    List.take_of_length_le (Nat.le_of_eq (h8 _)),
    leVal_leBytes8 _ ha, leVal_leBytes8 _ hf, leVal_leBytes8 _ hl]

/-- Slicing a flatten of uniform-length blocks at the j-th block. -/
theorem sliceRange_flatten_uniform (m : Nat) :
    ∀ (bs : List (List Nat)), (∀ b ∈ bs, b.length = m) →
      ∀ (j : Nat) (hj : j < bs.length),
        sliceRange bs.flatten (j * m) (j * m + m) = bs.get ⟨j, hj⟩ := by
  intro bs
  induction bs with
  | nil => intro _ j hj; exact absurd hj (by simp)
  | cons b rest ih =>
    intro hm j hj
    cases j with
    | zero =>
      have hb : b.length = m := hm b (by simp)
      have h := sliceRange_block [] b rest.flatten
      simp only [List.nil_append, List.length_nil, Nat.zero_add] at h
      rw [List.flatten_cons, Nat.zero_mul, Nat.zero_add, ← hb]
      exact h
    | succ j =>
      have hb : b.length = m := hm b (by simp)
      have harith1 : (j + 1) * m = b.length + j * m := by rw [hb]; ring
      have harith2 : (j + 1) * m + m = b.length + (j * m + m) := by rw [hb]; ring
      rw [List.flatten_cons, harith2, harith1,
        sliceRange_append_right b rest.flatten (j * m) (j * m + m),
        ih (fun x hx => hm x (by simp [hx])) j (by simpa using hj)]
      rfl

theorem dataOffset_zero (s : List MemoryChunk) : dataOffset s 0 = 0 := by
  simp [dataOffset, totalDataLen]

theorem dataOffset_cons_succ (c : MemoryChunk) (s : List MemoryChunk) (j : Nat) :
    dataOffset (c :: s) (j + 1) = c.data.length + dataOffset s j := by
  simp [dataOffset, totalDataLen, List.take_cons]

theorem buildEntries_get (s : List MemoryChunk) :
    ∀ (off : Nat) (j : Nat) (hj : j < s.length),
      (buildEntries s off).get ⟨j, by rw [buildEntries_length]; exact hj⟩ =
        ⟨(s.get ⟨j, hj⟩).address, off + dataOffset s j, (s.get ⟨j, hj⟩).data.length⟩ := by
  induction s with
  | nil => intro _ j hj; exact absurd hj (by simp)
  | cons c rest ih =>
    intro off j hj
    cases j with
    | zero =>
      rw [dataOffset_zero, Nat.add_zero]
      rfl
    | succ j =>
      have h := ih (off + c.data.length) j (by simpa using hj)
      rw [dataOffset_cons_succ, ← Nat.add_assoc]
      exact h

/-- The slice of the concatenated data section covering the j-th chunk. -/
theorem flatten_data_slice (s : List MemoryChunk) :
    ∀ (j : Nat) (hj : j < s.length),
      sliceRange ((s.map MemoryChunk.data).flatten) (dataOffset s j)
        (dataOffset s j + (s.get ⟨j, hj⟩).data.length) = (s.get ⟨j, hj⟩).data := by
  induction s with
  | nil => intro j hj; exact absurd hj (by simp)
  | cons c rest ih =>
    intro j hj
    cases j with
    | zero =>
      have hc : ((c :: rest).get ⟨0, hj⟩) = c := rfl
      rw [hc, dataOffset_zero]
      have h := sliceRange_block [] c.data (rest.map MemoryChunk.data).flatten
      simp only [List.nil_append, List.length_nil, Nat.zero_add] at h
      rw [List.map_cons, List.flatten_cons, Nat.zero_add]
      exact h
    | succ j =>
      simp only [List.get_cons_succ]
      rw [List.map_cons, List.flatten_cons, dataOffset_cons_succ]
      have h := sliceRange_append_right c.data (rest.map MemoryChunk.data).flatten
        (dataOffset rest j) (dataOffset rest j + (rest.get ⟨j, by simpa using hj⟩).data.length)
      rw [← Nat.add_assoc] at h
      rw [h]
      exact ih j (by simpa using hj)

theorem totalDataLen_cons (c : MemoryChunk) (s : List MemoryChunk) :
    totalDataLen (c :: s) = c.data.length + totalDataLen s := by
  simp [totalDataLen]

theorem totalDataLen_pos :
    ∀ (s : List MemoryChunk), s ≠ [] →
      (∀ c, s.getLast? = some c → c.data ≠ []) → 0 < totalDataLen s := by
  intro s
  induction s with
  | nil => intro h; exact absurd rfl h
  | cons c rest ih =>
    intro _ hlast
    cases rest with
    | nil =>
      have hc : c.data ≠ [] := hlast c rfl
      have : 0 < c.data.length := List.length_pos.mpr hc
      rw [totalDataLen_cons]
      omega
    | cons d rest2 =>
      have h2 : 0 < totalDataLen (d :: rest2) :=
        ih (by simp) fun x hx => hlast x (List.getLast?_cons_cons.trans hx)
      rw [totalDataLen_cons]
      omega

/-- Every entry the writer records lies inside the data section: its byte
range starts at or after the running offset and, when the last chunk has
non-empty data, strictly before the index offset, ending at or before it. -/
theorem buildEntries_valid :
    ∀ (s : List MemoryChunk) (off : Nat),
      (∀ c, s.getLast? = some c → c.data ≠ []) →
      ∀ e ∈ buildEntries s off,
        off ≤ e.file_offset ∧ e.file_offset < off + totalDataLen s ∧
          e.file_offset + e.length ≤ off + totalDataLen s := by
  intro s
  induction s with
  | nil => intro off _ e he; cases he
  | cons c rest ih =>
    intro off hlast e he
    rcases List.mem_cons.mp he with rfl | hm
    · refine ⟨Nat.le_refl _, ?_, ?_⟩
      · have hpos : 0 < totalDataLen (c :: rest) :=
          totalDataLen_pos (c :: rest) (by simp) hlast
        show off < off + totalDataLen (c :: rest)
        omega
      · show off + c.data.length ≤ off + totalDataLen (c :: rest)
        rw [totalDataLen_cons]
        omega
    · cases rest with
      | nil => cases hm
      | cons d rest2 =>
        have hrec := ih (off + c.data.length)
          (fun x hx => hlast x (List.getLast?_cons_cons.trans hx)) e hm
        rw [totalDataLen_cons]
        omega

/-- The addresses of the recorded entries are exactly the sorted chunks'
addresses. -/
theorem buildEntries_map_address (s : List MemoryChunk) :
    ∀ off : Nat, (buildEntries s off).map ChunkEntry.address = s.map MemoryChunk.address := by
  induction s with
  | nil => intro _; rfl
  | cons c rest ih => intro off; simp [buildEntries, ih]

/-- Among a list sorted by ascending address, every element's address is
bounded by the last element's. -/
theorem pairwise_le_getLast :
    ∀ l : List MemoryChunk, (l.Pairwise fun a b => a.address ≤ b.address) →
      ∀ c, l.getLast? = some c → ∀ d ∈ l, d.address ≤ c.address := by
  intro l
  induction l with
  | nil => intro _ c hc; cases hc
  | cons x rest ih =>
    intro hp c hc d hd
    rcases List.pairwise_cons.mp hp with ⟨hx, hrest⟩
    cases rest with
    | nil =>
      cases hc
      rcases List.mem_singleton.mp hd with rfl
      exact Nat.le_refl _
    | cons y rest2 =>
      have hc2 : (y :: rest2).getLast? = some c := List.getLast?_cons_cons.symm.trans hc
      rcases List.mem_cons.mp hd with rfl | hd2
      · exact hx c (List.mem_of_getLast?_eq_some hc2)
      · exact ih hrest c hc2 d hd2

/-- Every recorded entry's address and length come from some chunk of the
sorted list. -/
theorem buildEntries_mem_exists :
    ∀ (s : List MemoryChunk) (off : Nat) (e : ChunkEntry), e ∈ buildEntries s off →
      ∃ c ∈ s, e.address = c.address ∧ e.length = c.data.length := by
  intro s
  induction s with
  | nil => intro _ e he; cases he
  | cons c rest ih =>
    intro off e he
    rcases List.mem_cons.mp he with rfl | hm
    · exact ⟨c, by simp, rfl, rfl⟩
    · rcases ih (off + c.data.length) e hm with ⟨d, hd, h1, h2⟩
      exact ⟨d, by simp [hd], h1, h2⟩

theorem entriesBytes_length (es : List ChunkEntry) :
    ((es.map entryToBytes).flatten).length = 24 * es.length := by
  induction es with
  | nil => rfl
  | cons e rest ih =>
    rw [List.map_cons, List.flatten_cons, List.length_append, ih, entryToBytes_length,
      List.length_cons]
    ring

/-- The writer's output, fully right-associated. -/
theorem writeDump_decomp (cs : List MemoryChunk) :
    writeDump cs = ((sortByAddress cs).map MemoryChunk.data).flatten ++
      (leBytes 8 (buildEntries (sortByAddress cs) 0).length ++
        (((buildEntries (sortByAddress cs) 0).map entryToBytes).flatten ++
          leBytes 8 (((sortByAddress cs).map MemoryChunk.data).flatten).length)) := by
  simp [writeDump, writeBody, List.append_assoc]

theorem writeDump_length (cs : List MemoryChunk) :
    (writeDump cs).length = totalDataLen cs + (8 + (24 * cs.length + 8)) := by
  rw [writeDump_decomp]
  simp only [List.length_append, leBytes_length, entriesBytes_length, buildEntries_length]
  rw [flatten_map_data_length, totalDataLen_of_perm (sortByAddress_perm cs),
    (sortByAddress_perm cs).length_eq]

/-- The trailer of a written dump decodes to the total data length. -/
theorem dumpIndexOffset_writeDump (cs : List MemoryChunk)
    (h : totalDataLen cs < 2 ^ 64) :
    dumpIndexOffset (writeDump cs) = totalDataLen cs := by
  have hT : (((sortByAddress cs).map MemoryChunk.data).flatten).length = totalDataLen cs := by
    rw [flatten_map_data_length]
    exact totalDataLen_of_perm (sortByAddress_perm cs)
  have hw : writeDump cs =
      (((sortByAddress cs).map MemoryChunk.data).flatten ++
        (leBytes 8 (buildEntries (sortByAddress cs) 0).length ++
          ((buildEntries (sortByAddress cs) 0).map entryToBytes).flatten)) ++
        leBytes 8 (((sortByAddress cs).map MemoryChunk.data).flatten).length := by
    rw [writeDump_decomp]
    simp [List.append_assoc]
  rw [hw, dumpIndexOffset_append _ _ (leBytes_length 8 _), hT, leVal_leBytes8 _ h]

/-- The chunk count of a written dump decodes to the number of chunks. -/
theorem dumpChunkCount_writeDump (cs : List MemoryChunk)
    (hT : totalDataLen cs < 2 ^ 64) (hn : cs.length < 2 ^ 64) :
    dumpChunkCount (writeDump cs) = cs.length := by
  have hTlen : (((sortByAddress cs).map MemoryChunk.data).flatten).length = totalDataLen cs := by
    rw [flatten_map_data_length]
    exact totalDataLen_of_perm (sortByAddress_perm cs)
  have hio := dumpIndexOffset_writeDump cs hT
  rw [dumpChunkCount, hio]
  have hblock := sliceRange_block (((sortByAddress cs).map MemoryChunk.data).flatten)
    (leBytes 8 (buildEntries (sortByAddress cs) 0).length)
    (((buildEntries (sortByAddress cs) 0).map entryToBytes).flatten ++
      leBytes 8 (((sortByAddress cs).map MemoryChunk.data).flatten).length)
  rw [← writeDump_decomp] at hblock
  rw [hTlen, leBytes_length] at hblock
  rw [hblock, buildEntries_length, (sortByAddress_perm cs).length_eq,
    leVal_leBytes8 _ hn]

/-- The 24-byte slot of the j-th entry record inside a written dump. -/
theorem writeDump_entry_slice (cs : List MemoryChunk) (j : Nat)
    (hj : j < (buildEntries (sortByAddress cs) 0).length) :
    sliceRange (writeDump cs) (totalDataLen cs + 8 + j * 24)
      (totalDataLen cs + 8 + j * 24 + 24) =
      entryToBytes ((buildEntries (sortByAddress cs) 0).get ⟨j, hj⟩) := by
  have hTlen : (((sortByAddress cs).map MemoryChunk.data).flatten).length = totalDataLen cs := by
    rw [flatten_map_data_length]
    exact totalDataLen_of_perm (sortByAddress_perm cs)
  have hw : writeDump cs =
      (((sortByAddress cs).map MemoryChunk.data).flatten ++
        leBytes 8 (buildEntries (sortByAddress cs) 0).length) ++
        (((buildEntries (sortByAddress cs) 0).map entryToBytes).flatten ++
          leBytes 8 (((sortByAddress cs).map MemoryChunk.data).flatten).length) := by
    rw [writeDump_decomp]
    simp [List.append_assoc]
  have hA : (((sortByAddress cs).map MemoryChunk.data).flatten ++
      leBytes 8 (buildEntries (sortByAddress cs) 0).length).length =
      totalDataLen cs + 8 := by
    rw [List.length_append, hTlen, leBytes_length]
  have hmid := sliceRange_append_right
    (((sortByAddress cs).map MemoryChunk.data).flatten ++
      leBytes 8 (buildEntries (sortByAddress cs) 0).length)
    (((buildEntries (sortByAddress cs) 0).map entryToBytes).flatten ++
      leBytes 8 (((sortByAddress cs).map MemoryChunk.data).flatten).length)
    (j * 24) (j * 24 + 24)
  rw [hA] at hmid
  have h1 : totalDataLen cs + 8 + j * 24 + 24 = totalDataLen cs + 8 + (j * 24 + 24) := by
    omega
  rw [h1, hw, hmid]
  have hinner : sliceRange
      (((buildEntries (sortByAddress cs) 0).map entryToBytes).flatten ++
        leBytes 8 (((sortByAddress cs).map MemoryChunk.data).flatten).length)
      (j * 24) (j * 24 + 24) =
      sliceRange (((buildEntries (sortByAddress cs) 0).map entryToBytes).flatten)
        (j * 24) (j * 24 + 24) := by
    apply sliceRange_append_left
    rw [entriesBytes_length]
    omega
  rw [hinner]
  have huni := sliceRange_flatten_uniform 24
    ((buildEntries (sortByAddress cs) 0).map entryToBytes)
    (by
      intro b hb
      rcases List.mem_map.mp hb with ⟨e, _, rfl⟩
      exact entryToBytes_length e)
    j (by simpa using hj)
  rw [show j * 24 = 24 * j from by ring] at huni
  rw [show j * 24 = 24 * j from by ring, huni]
  exact List.get_map ..

/-- The entry-reading loop succeeds on a well-laid-out index region and
builds exactly the fold of inserts over the recorded entries. -/
theorem openEntries_ok (file : List Nat) (io es : Nat) :
    ∀ (l : List ChunkEntry) (i : Nat) (acc : List (Nat × ChunkEntry)),
      (∀ j, j < l.length → es + (i + j) * 24 + 24 ≤ file.length) →
      (∀ (j : Nat) (h : j < l.length),
        sliceRange file (es + (i + j) * 24) (es + (i + j) * 24 + 24) =
          entryToBytes (l.get ⟨j, h⟩)) →
      (∀ e ∈ l, e.address < 2 ^ 64 ∧ e.file_offset < 2 ^ 64 ∧ e.length < 2 ^ 64) →
      (∀ e ∈ l, e.file_offset < io ∧ (e.file_offset + e.length) % 2 ^ 64 ≤ io) →
      openEntries file io es i l.length acc = .ok ⟨file, insertList l acc⟩ := by
  intro l
  induction l with
  | nil => intro i acc _ _ _ _; rfl
  | cons e rest ih =>
    intro i acc hfit hbytes hsmall hvalid
    have hfit0 := hfit 0 (by simp)
    have hb0 := hbytes 0 (by simp)
    have hget0 : ((e :: rest).get ⟨0, by simp⟩) = e := rfl
    rw [hget0] at hb0
    simp only [Nat.add_zero] at hfit0 hb0
    have hsm0 := hsmall e (by simp)
    have hv0 := hvalid e (by simp)
    have hdec : entryFromBytes
        (sliceRange file (es + i * 24) (es + i * 24 + 24)) = some e := by
      rw [hb0]
      exact entryFromBytes_entryToBytes e hsm0.1 hsm0.2.1 hsm0.2.2
    rw [List.length_cons, openEntries, if_neg (by omega), hdec]
    show (if e.file_offset ≥ io ∨ (e.file_offset + e.length) % 2 ^ 64 > io then
        OpenOutcome.err "Invalid chunk file offset or length"
      else openEntries file io es (i + 1) rest.length (btInsert e.address e acc)) =
      OpenOutcome.ok ⟨file, insertList (e :: rest) acc⟩
    rw [if_neg (by omega)]
    exact ih (i + 1) (btInsert e.address e acc)
      (fun j hj => by
        have h := hfit (j + 1) (by simp only [List.length_cons]; omega)
        have h2 : i + (j + 1) = i + 1 + j := by omega
        rw [h2] at h
        exact h)
      (fun j hj => by
        have h := hbytes (j + 1) (by simp only [List.length_cons]; omega)
        have h2 : i + (j + 1) = i + 1 + j := by omega
        rw [h2] at h
        exact h)
      (fun e2 he2 => hsmall e2 (List.mem_cons_of_mem e he2))
      (fun e2 he2 => hvalid e2 (List.mem_cons_of_mem e he2))

theorem getChunkSlice_eq (r : Reader) (a : Nat) (e : ChunkEntry)
    (h : btGet a r.chunks = some e) :
    getChunkSlice r a = some (sliceRange r.mmap e.file_offset (e.file_offset + e.length)) := by
  rw [getChunkSlice, h]

theorem getChunkSlice_none (r : Reader) (a : Nat) (h : btGet a r.chunks = none) :
    getChunkSlice r a = none := by
  rw [getChunkSlice, h]

/-!
## Sortedness and range invariants of the opened index
-/

theorem btInsert_mem {q : Nat × ChunkEntry} {k : Nat} {v : ChunkEntry} :
    ∀ {b : List (Nat × ChunkEntry)}, q ∈ btInsert k v b → q = (k, v) ∨ q ∈ b := by
  intro b
  induction b with
  | nil => intro h; simpa [btInsert] using h
  | cons p rest ih =>
    intro h
    rw [btInsert] at h
    split at h
    · rcases List.mem_cons.mp h with rfl | h2
      · exact Or.inl rfl
      · exact Or.inr h2
    · split at h
      · rcases List.mem_cons.mp h with rfl | h2
        · exact Or.inl rfl
        · exact Or.inr (List.mem_cons_of_mem p h2)
      · rcases List.mem_cons.mp h with rfl | h2
        · exact Or.inr (by simp)
        · rcases ih h2 with h3 | h3
          · exact Or.inl h3
          · exact Or.inr (List.mem_cons_of_mem p h3)

theorem BTSorted_btInsert (k : Nat) (v : ChunkEntry) :
    ∀ b : List (Nat × ChunkEntry), BTSorted b → BTSorted (btInsert k v b) := by
  intro b
  induction b with
  | nil => intro _; simp [btInsert, BTSorted]
  | cons p rest ih =>
    intro hs
    rcases List.pairwise_cons.mp hs with ⟨hp, hrest⟩
    rw [btInsert]
    by_cases h1 : k < p.1
    · rw [if_pos h1]
      refine List.pairwise_cons.mpr ⟨?_, hs⟩
      intro q hq
      rcases List.mem_cons.mp hq with rfl | hq2
      · exact h1
      · exact Nat.lt_trans h1 (hp q hq2)
    · rw [if_neg h1]
      by_cases h2 : k = p.1
      · rw [if_pos h2]
        refine List.pairwise_cons.mpr ⟨?_, hrest⟩
        intro q hq
        exact h2 ▸ hp q hq
      · rw [if_neg h2]
        refine List.pairwise_cons.mpr ⟨?_, ih hrest⟩
        intro q hq
        rcases btInsert_mem hq with rfl | hq2
        · show p.1 < k
          omega
        · exact hp q hq2

/-- Success of the entry loop preserves the index invariants: the result's
mapped bytes are the input file, the map stays sorted, and every entry of
the map either was in the accumulator or passed the (wrapping) range
validation. -/
theorem openEntries_ok_inv (file : List Nat) (io es : Nat) :
    ∀ (k i : Nat) (acc : List (Nat × ChunkEntry)) (r : Reader),
      openEntries file io es i k acc = .ok r →
      BTSorted acc →
      (∀ p ∈ acc, p.2.file_offset < io ∧
        (p.2.file_offset + p.2.length) % 2 ^ 64 ≤ io) →
      r.mmap = file ∧ BTSorted r.chunks ∧
        ∀ p ∈ r.chunks, p.2.file_offset < io ∧
          (p.2.file_offset + p.2.length) % 2 ^ 64 ≤ io := by
  intro k
  induction k with
  | zero =>
    intro i acc r h hs hq
    cases h
    exact ⟨rfl, hs, hq⟩
  | succ k ih =>
    intro i acc r h hs hq
    rw [openEntries] at h
    split at h
    · exact OpenOutcome.noConfusion h
    · split at h
      · exact OpenOutcome.noConfusion h
      · rename_i e hdec
        split at h
        · exact OpenOutcome.noConfusion h
        · rename_i hv
          refine ih (i + 1) (btInsert e.address e acc) r h
            (BTSorted_btInsert e.address e acc hs) ?_
          intro p hp
          rcases btInsert_mem hp with rfl | hp2
          · constructor
            · show e.file_offset < io
              omega
            · show (e.file_offset + e.length) % 2 ^ 64 ≤ io
              omega
          · exact hq p hp2

/-- Facts available about any successfully opened reader: the mapped file,
sortedness of the index, the in-file index offset, and the (wrapping)
range bound every stored entry passed. -/
theorem open_ok_facts (file : List Nat) (r : Reader)
    (h : openDump file = .ok r) :
    r.mmap = file ∧ BTSorted r.chunks ∧ dumpIndexOffset file < file.length ∧
      ∀ p ∈ r.chunks, p.2.file_offset < dumpIndexOffset file ∧
        (p.2.file_offset + p.2.length) % 2 ^ 64 ≤ dumpIndexOffset file := by
  rw [openDump] at h
  split at h
  · exact OpenOutcome.noConfusion h
  · split at h
    · exact OpenOutcome.noConfusion h
    · split at h
      · exact OpenOutcome.noConfusion h
      · split at h
        · exact OpenOutcome.noConfusion h
        · rename_i h1 h2 h3 h4
          rcases openEntries_ok_inv file (dumpIndexOffset file) (dumpIndexOffset file + 8)
            (dumpChunkCount file) 0 [] r h (by simp [BTSorted]) (by simp) with
            ⟨hm, hsort, hrange⟩
          exact ⟨hm, hsort, by omega, hrange⟩

/-!
## Predecessor-lookup lemmas
-/

theorem btPred_none (a : Nat) :
    ∀ l : List (Nat × ChunkEntry), (∀ p ∈ l, a < p.1) → btPred a l = none := by
  intro l h
  cases l with
  | nil => rfl
  | cons p rest =>
    rw [btPred, if_neg (by
      have := h p (by simp)
      omega)]

theorem btPred_mem_le (a : Nat) :
    ∀ (l : List (Nat × ChunkEntry)) (ca : Nat) (e : ChunkEntry),
      btPred a l = some (ca, e) → (ca, e) ∈ l ∧ ca ≤ a := by
  intro l
  induction l with
  | nil => intro ca e h; exact Option.noConfusion h
  | cons p rest ih =>
    intro ca e h
    rw [btPred] at h
    split at h
    · rename_i hpa
      split at h
      · rename_i q hq
        cases h
        rcases ih _ _ hq with ⟨hm, hle⟩
        exact ⟨List.mem_cons_of_mem p hm, hle⟩
      · cases h
        exact ⟨by simp, hpa⟩
    · exact Option.noConfusion h

/-- On a sorted index, btPred returns the pair whose key is the greatest
one ≤ the queried address. -/
theorem btPred_spec (a : Nat) :
    ∀ (l : List (Nat × ChunkEntry)), BTSorted l →
      ∀ (ca : Nat) (e : ChunkEntry), (ca, e) ∈ l → ca ≤ a →
        (∀ p ∈ l, p.1 ≤ a → p.1 ≤ ca) → btPred a l = some (ca, e) := by
  intro l
  induction l with
  | nil => intro _ ca e hm; cases hm
  | cons p rest ih =>
    intro hs ca e hm hca hmax
    rcases List.pairwise_cons.mp hs with ⟨hp, hrest⟩
    rcases List.mem_cons.mp hm with heq | hm2
    · -- the greatest pair is the head: no key of the tail can be ≤ a
      have hpe : p = (ca, e) := heq.symm
      subst hpe
      rw [btPred, if_pos hca, btPred_none a rest (by
        intro q hq
        have h1 : ca < q.1 := hp q hq
        by_contra h2
        have h3 := hmax q (List.mem_cons_of_mem _ hq) (by omega)
        omega)]
    · have hple : p.1 ≤ a := by
        have h1 : p.1 < ca := hp (ca, e) hm2
        omega
      rw [btPred, if_pos hple,
        ih hrest ca e hm2 hca fun q hq hqa => hmax q (List.mem_cons_of_mem p hq) hqa]

theorem getMemorySlice_of_containing (r : Reader) (a len : Nat) (e : ChunkEntry) (ca : Nat)
    (h : containingChunk r a = some (e, ca)) :
    getMemorySlice r a len =
      if min len (e.length - (a - ca)) = 0 then some []
      else some (sliceRange r.mmap (e.file_offset + (a - ca))
        (e.file_offset + (a - ca) + min len (e.length - (a - ca)))) := by
  rw [getMemorySlice, h]

theorem getMemorySlice_of_no_containing (r : Reader) (a len : Nat)
    (h : containingChunk r a = none) : getMemorySlice r a len = none := by
  rw [getMemorySlice, h]

/-!
## Claim theorems
-/

/-- C9: on the snapshot (Minidump) and ConcatenatedDump backends,
Process::write is a no-op: it returns unit without error and leaves the
backend's state (segments, reader) completely unchanged. -/
theorem write_is_noop_on_readonly_backends (p : ProcessModel) (address : Nat)
    (buf : List Nat) : procWrite p address buf = (p, ()) := by
  cases p <;> rfl

/-- C4 (code bug): contrary to the specification, not every memory region
of the minidump source appears in the built segment list.  The merging loop
of Process::minidump never flushes its final pending chunk, so the
trailing run of regions is silently dropped: a single-region dump yields an
empty segment list (first conjunct), and even when a genuinely contiguous
pair merges, the merged result only survives because a later
non-adjacent region pushes it — that later region itself is then dropped
(second conjunct).  Moreover two regions that are numerically adjacent in
guest addresses but not byte-contiguous in the host buffer do not remain
separate segments: merge_adjacent_slices' assertion fails, i.e. the code
panics (third conjunct, modelled by the `none` outcome). -/
theorem minidump_drops_last_segment_and_panics_on_noncontiguous :
    minidumpLoad [1, 2, 3] [⟨0x1000, 0, 3⟩] = some [] ∧
    minidumpLoad [1, 2, 3, 4, 5, 6] [⟨0x1000, 0, 3⟩, ⟨0x1003, 3, 3⟩, ⟨0x2000, 0, 2⟩] =
      some [(0x1000, [1, 2, 3, 4, 5, 6])] ∧
    minidumpLoad [1, 2, 3, 4, 5, 6] [⟨0x1000, 0, 3⟩, ⟨0x1003, 5, 1⟩, ⟨0x2000, 0, 2⟩] =
      none := by
  decide

/-- C5 (counterexample): the claim states that a snapshot read whose range
starts inside a segment but extends past its end copies the available
prefix and leaves the rest of the buffer untouched.  On the segment
[1,2,3,4] at 0x1000, reading 4 bytes at 0x1002 would then yield
[3, 4, 9, 9]; the code instead indexes the segment out of range and
panics (`none`), returning no buffer at all. -/
theorem snapshot_read_overrun_panics_counterexample :
    snapshotRead [(0x1000, [1, 2, 3, 4])] 0x1002 [9, 9, 9, 9] = none := by
  decide

/-- C5 (amended): Process::read on the snapshot backend scans the segments
in order for the first one containing the address.  If no segment contains
it, the buffer is returned unchanged; if the first containing segment holds
the entire requested range, exactly the requested bytes are copied; but if
the range starts inside that segment and extends past its end the code
panics on the out-of-range slice index — it does not partial-copy. -/
theorem snapshot_read_characterization
    (segments pre post : List (Nat × List Nat)) (seg : Nat × List Nat)
    (address : Nat) (buf : List Nat) :
    ((∀ p ∈ segments, ¬(p.1 ≤ address ∧ address < p.1 + p.2.length)) →
      snapshotRead segments address buf = some buf) ∧
    (segments = pre ++ seg :: post →
      (∀ p ∈ pre, ¬(p.1 ≤ address ∧ address < p.1 + p.2.length)) →
      seg.1 ≤ address → address < seg.1 + seg.2.length →
      ((address - seg.1 + buf.length ≤ seg.2.length →
        snapshotRead segments address buf =
          some (sliceRange seg.2 (address - seg.1) (address - seg.1 + buf.length))) ∧
       (seg.2.length < address - seg.1 + buf.length →
        snapshotRead segments address buf = none))) := by
  constructor
  · intro hnone
    induction segments with
    | nil => rfl
    | cons p rest ih =>
      have hp := hnone p (by simp)
      obtain ⟨a, m⟩ := p
      simp only [snapshotRead, if_neg (by exact_mod_cast hp)]
      exact ih fun q hq => hnone q (by simp [hq])
  · rintro rfl hpre h1 h2
    induction pre with
    | nil =>
      obtain ⟨a, m⟩ := seg
      have h1a : a ≤ address := h1
      have h2a : address < a + m.length := h2
      constructor
      · intro hfit
        have hfita : address - a + buf.length ≤ m.length := hfit
        simp only [List.nil_append, snapshotRead, if_pos (⟨h1a, h2a⟩ : a ≤ address ∧ _),
          if_pos hfita]
      · intro hover
        have hovera : m.length < address - a + buf.length := hover
        simp only [List.nil_append, snapshotRead, if_pos (⟨h1a, h2a⟩ : a ≤ address ∧ _),
          if_neg (by omega : ¬(address - a + buf.length ≤ m.length))]
    | cons p rest ih =>
      have hp := hpre p (by simp)
      obtain ⟨a, m⟩ := p
      have ihr := ih fun q hq => hpre q (by simp [hq])
      simpa only [List.cons_append, snapshotRead, if_neg (by exact_mod_cast hp)] using ihr

/-- C5 (witness): the amended characterization applied to one concrete
segment list: a fully contained 2-byte read at 0x1002 returns the two
segment bytes [3, 4]. -/
theorem snapshot_read_characterization_witness :
    snapshotRead [(0x1000, [1, 2, 3, 4])] 0x1002 [9, 9] = some [3, 4] := by
  have h := (snapshot_read_characterization [(0x1000, [1, 2, 3, 4])] []
    [] (0x1000, [1, 2, 3, 4]) 0x1002 [9, 9]).2 (by decide)
    (by intro p hp; simp at hp) (by decide) (by decide)
  have h2 := h.1 (by decide)
  simpa using h2

/-- C1 (counterexample): a single chunk with an empty data vector has
pairwise-distinct, non-overlapping addresses, yet writing it and opening
the result fails: the empty chunk's entry has file_offset equal to the
index offset (both 0), so open's validation
`entry.file_offset >= index_offset` rejects the file the writer itself
produced. -/
theorem roundtrip_fails_on_empty_last_chunk :
    (([⟨0x1000, ([] : List Nat)⟩] : List MemoryChunk).Pairwise
      fun a b => a.address ≠ b.address) ∧
    (([⟨0x1000, ([] : List Nat)⟩] : List MemoryChunk).Pairwise
      fun a b => a.address + a.data.length ≤ b.address ∨
        b.address + b.data.length ≤ a.address) ∧
    openDump (writeDump [⟨0x1000, []⟩]) = .err "Invalid chunk file offset or length" := by
  refine ⟨by simp, by simp, by decide⟩

/-- C1 (amended): round-trip holds for every chunk set with
pairwise-distinct, non-overlapping u64 addresses whose maximal-address
chunk has non-empty data (the counterexample forces exactly this
exclusion): write followed by open succeeds, and get_chunk_slice at each
original address returns exactly that chunk's original bytes.  The size
hypothesis says the produced file fits in a u64-indexed address space, as
it does for any file a real machine can hold. -/
theorem dump_roundtrip (cs : List MemoryChunk)
    (haddr : ∀ c ∈ cs, c.address < 2 ^ 64)
    (hdist : cs.Pairwise fun a b => a.address ≠ b.address)
    (hnov : cs.Pairwise fun a b =>
      a.address + a.data.length ≤ b.address ∨ b.address + b.data.length ≤ a.address)
    (hlast : ∀ c ∈ cs, (∀ d ∈ cs, d.address ≤ c.address) → c.data ≠ [])
    (hsize : totalDataLen cs + 24 * cs.length + 16 < 2 ^ 64) :
    ∃ r, openDump (writeDump cs) = .ok r ∧
      ∀ c ∈ cs, getChunkSlice r c.address = some c.data := by
  have hperm := sortByAddress_perm cs
  have hTs : totalDataLen (sortByAddress cs) = totalDataLen cs := totalDataLen_of_perm hperm
  have hTlen : ((sortByAddress cs).map MemoryChunk.data).flatten.length = totalDataLen cs := by
    rw [flatten_map_data_length, hTs]
  have hns : (sortByAddress cs).length = cs.length := hperm.length_eq
  have hflen := writeDump_length cs
  have hio := dumpIndexOffset_writeDump cs (by omega)
  have hcount := dumpChunkCount_writeDump cs (by omega) (by omega)
  have hlastS : ∀ c, (sortByAddress cs).getLast? = some c → c.data ≠ [] := by
    intro c hc
    have hcm : c ∈ sortByAddress cs := List.mem_of_getLast?_eq_some hc
    refine hlast c (hperm.mem_iff.mp hcm) ?_
    intro d hd
    exact pairwise_le_getLast _ (pairwise_le_sortByAddress cs) c hc d (hperm.mem_iff.mpr hd)
  have hval : ∀ e ∈ buildEntries (sortByAddress cs) 0,
      e.file_offset < totalDataLen cs ∧ e.file_offset + e.length ≤ totalDataLen cs := by
    intro e he
    have h := buildEntries_valid (sortByAddress cs) 0 hlastS e he
    constructor
    · have h2 := h.2.1
      rw [Nat.zero_add, hTs] at h2
      exact h2
    · have h2 := h.2.2
      rw [Nat.zero_add, hTs] at h2
      exact h2
  have hsmall : ∀ e ∈ buildEntries (sortByAddress cs) 0,
      e.address < 2 ^ 64 ∧ e.file_offset < 2 ^ 64 ∧ e.length < 2 ^ 64 := by
    intro e he
    rcases buildEntries_mem_exists _ _ e he with ⟨c, hc, ha, hl⟩
    have h := hval e he
    refine ⟨ha ▸ haddr c (hperm.mem_iff.mp hc), by omega, by omega⟩
  have hopen : openDump (writeDump cs) = openEntries (writeDump cs) (totalDataLen cs)
      (totalDataLen cs + 8) 0 cs.length [] := by
    rw [openDump, if_neg (by omega), hio, if_neg (by omega), if_neg (by omega),
      hcount, if_neg (by omega)]
  have hok := openEntries_ok (writeDump cs) (totalDataLen cs) (totalDataLen cs + 8)
    (buildEntries (sortByAddress cs) 0) 0 []
    (fun j hj => by
      rw [buildEntries_length] at hj
      have hjn : j < cs.length := hns ▸ hj
      omega)
    (fun j hj => by
      rw [Nat.zero_add]
      exact writeDump_entry_slice cs j hj)
    hsmall
    (fun e he => ⟨(hval e he).1, by
      have h2 := (hval e he).2
      have h3 := Nat.mod_le (e.file_offset + e.length) (2 ^ 64)
      omega⟩)
  refine ⟨⟨writeDump cs, insertList (buildEntries (sortByAddress cs) 0) []⟩, ?_, ?_⟩
  · rw [hopen, show cs.length = (buildEntries (sortByAddress cs) 0).length from by
      rw [buildEntries_length, hns]]
    exact hok
  · intro c hc
    have hcs : c ∈ sortByAddress cs := hperm.mem_iff.mpr hc
    rcases List.mem_iff_get.mp hcs with ⟨⟨j, hj⟩, hcj⟩
    have hjE : j < (buildEntries (sortByAddress cs) 0).length := by
      rw [buildEntries_length]
      exact hj
    have hget := buildEntries_get (sortByAddress cs) 0 j hj
    rw [hcj] at hget
    have hdistS : (sortByAddress cs).Pairwise fun a b => a.address ≠ b.address :=
      (List.Perm.pairwise_iff (fun h h2 => h h2.symm) hperm).mpr hdist
    have hnodup : ((buildEntries (sortByAddress cs) 0).map ChunkEntry.address).Nodup := by
      rw [buildEntries_map_address]
      exact List.pairwise_map.mpr hdistS
    have hmemj : (buildEntries (sortByAddress cs) 0).get ⟨j, hjE⟩ ∈
        (buildEntries (sortByAddress cs) 0).reverse :=
      List.mem_reverse.mpr (List.get_mem _ _ _)
    have haddrj : ((buildEntries (sortByAddress cs) 0).get ⟨j, hjE⟩).address = c.address := by
      rw [hget]
    have hfind := find?_addr_of_nodup ((buildEntries (sortByAddress cs) 0).reverse)
      ((buildEntries (sortByAddress cs) 0).get ⟨j, hjE⟩) hmemj
      (by
        rw [List.map_reverse]
        exact List.nodup_reverse.mpr hnodup)
    rw [haddrj] at hfind
    have hbt : btGet c.address (insertList (buildEntries (sortByAddress cs) 0) []) =
        some ((buildEntries (sortByAddress cs) 0).get ⟨j, hjE⟩) := by
      rw [btGet_insertList, hfind]
      rfl
    rw [getChunkSlice_eq _ _ _ hbt, hget]
    show some (sliceRange (writeDump cs) (0 + dataOffset (sortByAddress cs) j)
      (0 + dataOffset (sortByAddress cs) j + c.data.length)) = some c.data
    rw [Nat.zero_add]
    have hvj := hval _ (List.get_mem (buildEntries (sortByAddress cs) 0) j hjE)
    rw [hget] at hvj
    have hbound : dataOffset (sortByAddress cs) j + c.data.length ≤ totalDataLen cs := by
      have h2 := hvj.2
      rw [Nat.zero_add] at h2
      exact h2
    have hsl : sliceRange (writeDump cs) (dataOffset (sortByAddress cs) j)
        (dataOffset (sortByAddress cs) j + c.data.length) =
        sliceRange (((sortByAddress cs).map MemoryChunk.data).flatten)
          (dataOffset (sortByAddress cs) j)
          (dataOffset (sortByAddress cs) j + c.data.length) := by
      rw [writeDump_decomp]
      exact sliceRange_append_left _ _ _ _ (by rw [hTlen]; exact hbound)
    rw [hsl]
    have hdata := flatten_data_slice (sortByAddress cs) j hj
    rw [hcj] at hdata
    rw [hdata]

/-- C1 (witness): the amended round-trip applied to two concrete non-empty
chunks. -/
theorem dump_roundtrip_witness :
    ∃ r, openDump (writeDump [⟨0x1000, [1, 2, 3]⟩, ⟨0x2000, [4, 5]⟩]) = .ok r ∧
      ∀ c ∈ ([⟨0x1000, [1, 2, 3]⟩, ⟨0x2000, [4, 5]⟩] : List MemoryChunk),
        getChunkSlice r c.address = some c.data :=
  dump_roundtrip [⟨0x1000, [1, 2, 3]⟩, ⟨0x2000, [4, 5]⟩]
    (by decide) (by decide) (by decide) (by decide) (by decide)

/-- C2 (counterexample): the containment check of get_memory_slice is the
u64 sum `chunk.address + chunk.length`, which wraps when a chunk sits at
the top of the address space.  open accepts a dump whose single chunk has
address 2^64-1 and length 5 (its validation bounds only file offsets), and
the address 2^64-1 then lies strictly below the chunk's start plus its
length in the claim's arithmetic reading — yet the read returns nothing: a
release build wraps the bound to 4 and fails the containment test (a debug
build panics at the addition). -/
theorem memory_slice_wrap_counterexample :
    openDump wrapFile = .ok wrapReader ∧
    wrapEntry.address ≤ 2 ^ 64 - 1 ∧
    2 ^ 64 - 1 < wrapEntry.address + wrapEntry.length ∧
    getMemorySlice wrapReader (2 ^ 64 - 1) 1 = none := by
  refine ⟨by decide, by decide, by decide, by decide⟩

/-- C2 (amended): for every opened dump, get_memory_slice resolves an
address through the chunk with the greatest start address ≤ the address.
The containment bound chunk.address + chunk.length is the u64 sum the code
computes, which wraps modulo 2^64 in a release build (a debug build panics
on the overflow); for every chunk whose address + length does not exceed
2^64 — every chunk not abutting the top of the address space — it is the
exact sum of the original claim.  If the address lies below that wrapped
bound, the result is exactly min(length, chunk.length - (address -
chunk.address)) bytes taken from that chunk's file range at offset
address - chunk.address — never crossing into a neighboring chunk; a zero
clamped length yields an empty, present slice; if the predecessor chunk
does not contain the address, or no chunk at all contains it, the result
is nothing.  The detailed read conclusions are stated for entries whose
recorded byte range file_offset + length fits a u64 — every entry a real
file can contain; past that bound the wrapped validation can admit an
entry on which the zero-copy slice itself would panic.  The spec's
concrete example dump behaves as claimed on its three reads. -/
theorem memory_slice_containment :
    (∀ (file : List Nat) (r : Reader), openDump file = .ok r → ∀ a len : Nat,
      (∀ (ca : Nat) (e : ChunkEntry), (ca, e) ∈ r.chunks →
        e.file_offset + e.length < 2 ^ 64 → ca ≤ a →
        (∀ p ∈ r.chunks, p.1 ≤ a → p.1 ≤ ca) →
        (a < (ca + e.length) % 2 ^ 64 →
          getMemorySlice r a len =
            some (sliceRange r.mmap (e.file_offset + (a - ca))
              (e.file_offset + (a - ca) + min len (e.length - (a - ca)))) ∧
          (getMemorySlice r a len).map List.length =
            some (min len (e.length - (a - ca))) ∧
          (min len (e.length - (a - ca)) = 0 → getMemorySlice r a len = some [])) ∧
        (¬ a < (ca + e.length) % 2 ^ 64 → getMemorySlice r a len = none)) ∧
      ((∀ p ∈ r.chunks, ¬(p.1 ≤ a ∧ a < (p.1 + p.2.length) % 2 ^ 64)) →
        getMemorySlice r a len = none)) ∧
    openDump exampleDump = .ok exampleReader ∧
    getMemorySlice exampleReader 0x1002 3 = some [3, 4, 5] ∧
    getMemorySlice exampleReader 0x1003 10 = some [4, 5] ∧
    getMemorySlice exampleReader 0x3000 1 = none := by
  refine ⟨?_, by decide, by decide, by decide, by decide⟩
  intro file r hopen a len
  obtain ⟨hm, hsort, hiolen, hrange⟩ := open_ok_facts file r hopen
  constructor
  · intro ca e hmem hfo64 hca hmax
    have hpred := btPred_spec a r.chunks hsort ca e hmem hca hmax
    constructor
    · intro hcont
      have hcc : containingChunk r a = some (e, ca) := by
        rw [containingChunk, hpred]
        show (if ca ≤ a ∧ a < (ca + e.length) % 2 ^ 64 then some (e, ca) else none) =
          some (e, ca)
        rw [if_pos (⟨hca, hcont⟩ : ca ≤ a ∧ a < (ca + e.length) % 2 ^ 64)]
      have hget := getMemorySlice_of_containing r a len e ca hcc
      have hslice : getMemorySlice r a len =
          some (sliceRange r.mmap (e.file_offset + (a - ca))
            (e.file_offset + (a - ca) + min len (e.length - (a - ca)))) := by
        by_cases hz : min len (e.length - (a - ca)) = 0
        · rw [hget, if_pos hz, hz]
          unfold sliceRange
          simp
        · rw [hget, if_neg hz]
      refine ⟨hslice, ?_, fun hz => by rw [hget, if_pos hz]⟩
      have hrangeW := hrange (ca, e) hmem
      have hmodid : (e.file_offset + e.length) % 2 ^ 64 = e.file_offset + e.length :=
        Nat.mod_eq_of_lt hfo64
      have hrangeE : e.file_offset + e.length < file.length := by
        have h2 : (e.file_offset + e.length) % 2 ^ 64 ≤ dumpIndexOffset file := hrangeW.2
        omega
      have hmlen : r.mmap.length = file.length := by rw [hm]
      have hminle : min len (e.length - (a - ca)) ≤ e.length - (a - ca) :=
        Nat.min_le_right _ _
      have hcontm : a < ca + e.length := by
        have := Nat.mod_le (ca + e.length) (2 ^ 64)
        omega
      rw [hslice]
      have hlen := sliceRange_length r.mmap (e.file_offset + (a - ca))
        (e.file_offset + (a - ca) + min len (e.length - (a - ca)))
        (by omega) (by omega)
      simp only [Option.map_some']
      rw [hlen]
      congr 1
      omega
    · intro hcont
      have hcc : containingChunk r a = none := by
        rw [containingChunk, hpred]
        show (if ca ≤ a ∧ a < (ca + e.length) % 2 ^ 64 then some (e, ca) else none) = none
        rw [if_neg fun hb => hcont hb.2]
      exact getMemorySlice_of_no_containing r a len hcc
  · intro hnone
    rcases hp : btPred a r.chunks with _ | q
    · exact getMemorySlice_of_no_containing r a len (by rw [containingChunk, hp])
    · obtain ⟨ca0, e0⟩ := q
      rcases btPred_mem_le a r.chunks ca0 e0 hp with ⟨hm0, hle0⟩
      have hcc : containingChunk r a = none := by
        rw [containingChunk, hp]
        show (if ca0 ≤ a ∧ a < (ca0 + e0.length) % 2 ^ 64 then some (e0, ca0) else none) =
          none
        rw [if_neg (hnone (ca0, e0) hm0)]
      exact getMemorySlice_of_no_containing r a len hcc

/-- C2 (witness): the containment theorem applied to the concrete example
reader at the unmapped address 0x3000 — the read returns nothing. -/
theorem memory_slice_containment_witness :
    getMemorySlice exampleReader 0x3000 1 = none :=
  (memory_slice_containment.1 exampleDump exampleReader (by decide) 0x3000 1).2
    (by decide)

/-- C10: when the on-disk index holds several entries with the same
address, all individually passing the range validation, open still
succeeds; the built index maps each address to the entry appearing latest
in on-disk order (BTreeMap insert replaces), and get_chunk_slice returns
that entry's bytes. -/
theorem duplicate_addresses_last_wins (file : List Nat) (es : List ChunkEntry)
    (h8 : 8 ≤ file.length)
    (hio8 : dumpIndexOffset file + 8 ≤ file.length)
    (hcnt : dumpChunkCount file = es.length)
    (hcap : es.length ≤ file.length / 24)
    (hfit : ∀ j, j < es.length →
      dumpIndexOffset file + 8 + j * 24 + 24 ≤ file.length)
    (hbytes : ∀ (j : Nat) (h : j < es.length),
      sliceRange file (dumpIndexOffset file + 8 + j * 24)
        (dumpIndexOffset file + 8 + j * 24 + 24) = entryToBytes (es.get ⟨j, h⟩))
    (hsmall : ∀ e ∈ es, e.address < 2 ^ 64 ∧ e.file_offset < 2 ^ 64 ∧ e.length < 2 ^ 64)
    (hvalid : ∀ e ∈ es, e.file_offset < dumpIndexOffset file ∧
      e.file_offset + e.length ≤ dumpIndexOffset file) :
    openDump file = .ok ⟨file, insertList es []⟩ ∧
    ∀ a, btGet a (insertList es []) = es.reverse.find? (fun e => e.address == a) ∧
      getChunkSlice ⟨file, insertList es []⟩ a =
        (es.reverse.find? fun e => e.address == a).map
          fun e => sliceRange file e.file_offset (e.file_offset + e.length) := by
  constructor
  · rw [openDump, if_neg (by omega), if_neg (by omega), if_neg (by omega), hcnt,
      if_neg (by omega)]
    exact openEntries_ok file (dumpIndexOffset file) (dumpIndexOffset file + 8) es 0 []
      (fun j hj => by
        have := hfit j hj
        omega)
      (fun j hj => by
        rw [Nat.zero_add]
        exact hbytes j hj)
      hsmall
      (fun e he => ⟨(hvalid e he).1, by
        have h2 := (hvalid e he).2
        have h3 := Nat.mod_le (e.file_offset + e.length) (2 ^ 64)
        omega⟩)
  · intro a
    have hor : btGet a (insertList es []) = es.reverse.find? fun e => e.address == a := by
      rw [btGet_insertList]
      exact Option.or_none
    refine ⟨hor, ?_⟩
    rcases hf : es.reverse.find? (fun e => e.address == a) with _ | e
    · rw [hf] at hor
      rw [getChunkSlice_none _ _ hor, hf]
      rfl
    · rw [hf] at hor
      rw [getChunkSlice_eq _ _ _ hor, hf]
      rfl

/-- C10 (witness): the theorem applied to the concrete duplicate-address
file: open succeeds and the lookup at 0x10 resolves through the latest
on-disk entry (the one with file_offset 1, i.e. the byte 187). -/
theorem duplicate_addresses_last_wins_witness :
    openDump dupFile = .ok ⟨dupFile, insertList dupEntries []⟩ ∧
    getChunkSlice ⟨dupFile, insertList dupEntries []⟩ 0x10 =
      (dupEntries.reverse.find? fun e => e.address == 0x10).map
        fun e => sliceRange dupFile e.file_offset (e.file_offset + e.length) := by
  have h := duplicate_addresses_last_wins dupFile dupEntries (by decide) (by decide)
    (by decide) (by decide) (by decide) (by decide) (by decide) (by decide)
  exact ⟨h.1, (h.2 0x10).2⟩

/-- C3 (counterexample): a 16-byte file whose trailing 8 bytes decode to
index offset 9 defeats the claimed no-panic guarantee.  The offset passes
the `index_offset >= len` check (9 < 16), but the unchecked slice
`&mmap[9..17]` taken for the chunk count runs past the end of the file, so
open panics instead of returning a data-corruption error. -/
theorem open_panics_on_near_end_offset_counterexample :
    openDump (List.replicate 8 0 ++ leBytes 8 9) = .crash := by
  decide

/-- C3 (amended): each corruption listed by the claim is rejected with an
error — a file shorter than 8 bytes, a trailing index offset at or past
the end of the file, a chunk count exceeding len / 24, and an entry record
that runs past the end of the file or whose byte range fails the
validation against the index offset.  The byte-range validation is the
u64 comparison the code performs: an entry is rejected when its
file_offset reaches the index offset or when (file_offset + length)
mod 2^64 exceeds it — a range whose true sum overflows u64 can wrap below
the index offset and be accepted by a release build (a debug build panics
at that addition; badEntryStep and the characterization below are the
release behaviour).  Moreover, open is not panic-free for every input: it
panics exactly when the decoded index offset lies strictly inside the
file but within the last 8 bytes, where the chunk-count slice runs past
the end of the file. -/
theorem open_corruption_rejection
    (file : List Nat) :
    (file.length < 8 →
      openDump file = .err "File too small to be a valid concatenated dump") ∧
    (8 ≤ file.length → file.length ≤ dumpIndexOffset file →
      openDump file = .err "Invalid index offset") ∧
    (openDump file = .crash ↔
      (8 ≤ file.length ∧ dumpIndexOffset file < file.length ∧
        file.length < dumpIndexOffset file + 8)) ∧
    (8 ≤ file.length → dumpIndexOffset file + 8 ≤ file.length →
      file.length / 24 < dumpChunkCount file →
      openDump file = .err "Invalid chunk count") ∧
    (8 ≤ file.length → dumpIndexOffset file + 8 ≤ file.length →
      dumpChunkCount file ≤ file.length / 24 →
      (∃ j, j < dumpChunkCount file ∧
        badEntryStep file (dumpIndexOffset file) (dumpIndexOffset file + 8) j) →
      ∃ m, openDump file = .err m) := by
  refine ⟨?_, ?_, ?_, ?_, ?_⟩
  · intro h
    rw [openDump, if_pos h]
  · intro h8 hio
    rw [openDump, if_neg (by omega), if_pos (by omega)]
  · constructor
    · intro h
      rw [openDump] at h
      split at h
      · exact absurd h (by simp)
      · split at h
        · exact absurd h (by simp)
        · split at h
          · omega
          · split at h
            · exact absurd h (by simp)
            · exact absurd h (openEntries_ne_crash _ _ _ _ _ _)
    · rintro ⟨h8, hlt, hgt⟩
      rw [openDump, if_neg (by omega), if_neg (by omega), if_pos (by omega)]
  · intro h8 hio hcount
    rw [openDump, if_neg (by omega), if_neg (by omega), if_neg (by omega),
      if_pos (by omega)]
  · intro h8 hio hcount hbad
    rw [openDump, if_neg (by omega), if_neg (by omega), if_neg (by omega),
      if_neg (by omega)]
    exact openEntries_err_of_bad _ _ _ _ _ _
      (by simpa using hbad)

/-- C3 (witness): the amended theorem applied at concrete corrupted files:
the empty file is rejected as too small, and a 16-byte file whose trailer
decodes to offset 20 (at or past the end) is rejected as an invalid index
offset. -/
theorem open_corruption_rejection_witness :
    openDump [] = .err "File too small to be a valid concatenated dump" ∧
    openDump (List.replicate 8 0 ++ leBytes 8 20) = .err "Invalid index offset" := by
  constructor
  · exact (open_corruption_rejection []).1 (by decide)
  · exact (open_corruption_rejection (List.replicate 8 0 ++ leBytes 8 20)).2.1
      (by decide) (by decide)

/-- C6: the u64 stored little-endian in the last 8 bytes of the produced
file equals the total length of all chunk data written, and the index
(chunk count, then the entries) begins exactly where the concatenated
chunk data ends: the bytes before that offset are exactly the sorted
chunks' data and the bytes from it on are the count, the entry records and
the trailer. -/
theorem trailer_equals_total_data_length (cs : List MemoryChunk)
    (h : totalDataLen cs < 2 ^ 64) :
    dumpIndexOffset (writeDump cs) = totalDataLen cs ∧
    (writeDump cs).take (totalDataLen cs) =
      ((sortByAddress cs).map MemoryChunk.data).flatten ∧
    (writeDump cs).drop (totalDataLen cs) =
      leBytes 8 cs.length ++
        ((buildEntries (sortByAddress cs) 0).map entryToBytes).flatten ++
        leBytes 8 (totalDataLen cs) := by
  have hperm := sortByAddress_perm cs
  have hT : ((sortByAddress cs).map MemoryChunk.data).flatten.length = totalDataLen cs := by
    rw [flatten_map_data_length]
    exact totalDataLen_of_perm hperm
  have hn : (buildEntries (sortByAddress cs) 0).length = cs.length := by
    rw [buildEntries_length]
    exact hperm.length_eq
  have hw : writeDump cs =
      ((sortByAddress cs).map MemoryChunk.data).flatten ++
        (leBytes 8 (buildEntries (sortByAddress cs) 0).length ++
          (((buildEntries (sortByAddress cs) 0).map entryToBytes).flatten ++
            leBytes 8 ((sortByAddress cs).map MemoryChunk.data).flatten.length)) := by
    simp [writeDump, writeBody, List.append_assoc]
  refine ⟨?_, ?_, ?_⟩
  · have hw2 : writeDump cs =
        (((sortByAddress cs).map MemoryChunk.data).flatten ++
          (leBytes 8 (buildEntries (sortByAddress cs) 0).length ++
            ((buildEntries (sortByAddress cs) 0).map entryToBytes).flatten)) ++
          leBytes 8 ((sortByAddress cs).map MemoryChunk.data).flatten.length := by
      rw [hw]
      simp [List.append_assoc]
    rw [hw2, dumpIndexOffset_append _ _ (leBytes_length 8 _), hT, leVal_leBytes8 _ h]
  · conv_lhs => rw [hw, ← hT]
    exact List.take_left _ _
  · conv_lhs => rw [hw, ← hT]
    rw [List.drop_left, hn, hT]
    simp [List.append_assoc]

/-- C6 (witness): the theorem applied to two concrete chunks with 2 and 3
data bytes: the trailer decodes to 5. -/
theorem trailer_equals_total_data_length_witness :
    dumpIndexOffset (writeDump [⟨0x20, [1, 2]⟩, ⟨0x10, [3, 4, 5]⟩]) = 5 := by
  exact (trailer_equals_total_data_length [⟨0x20, [1, 2]⟩, ⟨0x10, [3, 4, 5]⟩]
    (by decide)).1

/-- C7: for a chunk set with unique addresses, any two insertion orders
produce byte-identical files: write sorts the chunks by address ascending
before emitting anything, and with distinct keys the sorted sequence is
unique. -/
theorem write_insertion_order_invariance (cs1 cs2 : List MemoryChunk)
    (hperm : cs1.Perm cs2)
    (hdist : cs1.Pairwise fun a b => a.address ≠ b.address) :
    writeDump cs1 = writeDump cs2 := by
  have hsort : sortByAddress cs1 = sortByAddress cs2 := by
    have hsymm : ∀ {a b : MemoryChunk}, a.address ≠ b.address → b.address ≠ a.address :=
      fun h h2 => h h2.symm
    have hp1 : (sortByAddress cs1).Perm cs1 := sortByAddress_perm cs1
    have hp2 : (sortByAddress cs2).Perm cs2 := sortByAddress_perm cs2
    have hd1 : (sortByAddress cs1).Pairwise fun a b => a.address ≠ b.address :=
      (List.Perm.pairwise_iff hsymm hp1).mpr hdist
    have hd2 : (sortByAddress cs2).Pairwise fun a b => a.address ≠ b.address :=
      (List.Perm.pairwise_iff hsymm (hp2.trans hperm.symm)).mpr hdist
    have hlt1 : (sortByAddress cs1).Pairwise fun a b => a.address < b.address :=
      ((pairwise_le_sortByAddress cs1).and hd1).imp fun h => Nat.lt_of_le_of_ne h.1 h.2
    have hlt2 : (sortByAddress cs2).Pairwise fun a b => a.address < b.address :=
      ((pairwise_le_sortByAddress cs2).and hd2).imp fun h => Nat.lt_of_le_of_ne h.1 h.2
    exact sorted_strict_perm_eq _ _ (hp1.trans (hperm.trans hp2.symm)) hlt1 hlt2
  rw [writeDump, writeDump, hsort]

/-- C7 (witness): two insertion orders of the same two-chunk set produce
the same bytes. -/
theorem write_insertion_order_invariance_witness :
    writeDump [⟨0x20, [1, 2]⟩, ⟨0x10, [3]⟩] = writeDump [⟨0x10, [3]⟩, ⟨0x20, [1, 2]⟩] :=
  write_insertion_order_invariance [⟨0x20, [1, 2]⟩, ⟨0x10, [3]⟩]
    [⟨0x10, [3]⟩, ⟨0x20, [1, 2]⟩] (by decide) (by decide)

/-- C8: the observable event trace of a successfully constructed plugin
backend contains exactly one attach call and exactly one detach call; the
attach call comes immediately after the five symbol resolutions and before
every routed read/write/can_read event; the detach call is the final
event, produced when the backend is dropped. -/
theorem plugin_lifecycle (ops : List PluginOp) :
    (pluginLifetime ops).count .attachCall = 1 ∧
    (pluginLifetime ops).count .detachCall = 1 ∧
    pluginLifetime ops =
      [.resolve "yc_attach", .resolve "yc_read", .resolve "yc_write",
       .resolve "yc_can_read", .resolve "yc_detach"] ++ [.attachCall] ++
      ops.map opEvent ++ [.detachCall] ∧
    (∀ e ∈ ops.map opEvent, e ≠ PluginEvent.attachCall ∧ e ≠ PluginEvent.detachCall) ∧
    (pluginLifetime ops).getLast? = some .detachCall := by
  have hop : ∀ op : PluginOp, opEvent op ≠ PluginEvent.attachCall ∧
      opEvent op ≠ PluginEvent.detachCall := by
    intro op; cases op <;> exact ⟨by decide, by decide⟩
  have hmem : ∀ e ∈ ops.map opEvent, e ≠ PluginEvent.attachCall ∧
      e ≠ PluginEvent.detachCall := by
    intro e he
    obtain ⟨op, _, rfl⟩ := List.mem_map.mp he
    exact hop op
  have hcount : ∀ (x : PluginEvent), (∀ e ∈ ops.map opEvent, e ≠ x) →
      (ops.map opEvent).count x = 0 := by
    intro x hx
    exact List.count_eq_zero.mpr fun h => hx x h rfl
  refine ⟨?_, ?_, rfl, hmem, ?_⟩
  · rw [pluginLifetime, List.count_append, List.count_append,
      hcount _ fun e he => (hmem e he).1]
    decide
  · rw [pluginLifetime, List.count_append, List.count_append,
      hcount _ fun e he => (hmem e he).2]
    decide
  · simp [pluginLifetime]

end YClass
